import Mathlib

/-!
Verification of the contract-analysis pipeline
(clause extraction, rule-based classification, precedent retrieval,
orchestration) against its natural-language specification.

The Python sources are shallowly embedded as Lean definitions:

* `src/clause_extraction.py` : `preprocess_text`, `split_into_clauses`,
  `classify_clause`, `extract_clauses_from_pdf` (the external PDF reader
  `pdfplumber` is abstracted away: the embedding starts from the raw
  extracted text).
* `src/retrieval_engine.py` : the precedent corpus, per-group index lookup,
  `retrieve_similar`, `process_clauses`.  The external sentence-transformer
  model together with the float vector normalisation (`model.encode` +
  `normalize_vectors`) is abstracted as a rational-valued embedding
  parameter `encode : String → List ℚ`; the FAISS inner-product index
  search is modelled as an exact top-k selection by descending inner
  product (stable on ties, matching the spec's insertion-order tie-break).
* `src/llm_engine.py` : `analyze_batch_risk`, with the external Groq chat
  call modelled as an explicit outcome value (`LLMResult`): an exception
  anywhere in the `try` block (API failure, malformed JSON) is the `err`
  case, a parsed `{"results": [...]}` payload is the `ok` case.
* `src/pipeline.py` : `REQUIRED_CLAUSES`, `run_analysis_pipeline`.

Machine reals (Python floats, numpy float32) are modelled as `ℚ`;
Python `dict` lookups are modelled as functions `Nat → Option _` built by
repeated update, and Python `set` membership as list membership.
-/

namespace ContractAI

/-! ### Basic string machinery

Python operates on strings; the embedding works on `List Char` obtained
from `String.data`, with hand-rolled, fully executable helpers.
-/

/-- `hasPre n h` : the list `n` is an initial segment of `h`
(Python slice comparison used by substring search). -/
def hasPre : List Char → List Char → Bool
  | [], _ => true
  | _ :: _, [] => false
  | a :: as, b :: bs => a == b && hasPre as bs

/-- `hasSub n h` : Python's `n in h` substring test. -/
def hasSub (n : List Char) : List Char → Bool
  | [] => n.isEmpty
  | c :: rest => hasPre n (c :: rest) || hasSub n (c :: rest).tail

/-- Python's `word in clause` on strings. -/
def kwIn (w clause : String) : Bool := hasSub w.data clause.data

/-- Python's `str.lower()` (ASCII case folding, as exercised by the
all-ASCII keyword tables of the source). -/
def lowerStr (s : String) : String := String.mk (s.data.map Char.toLower)

/-! ### Clause classifier (`classify_clause`, src/clause_extraction.py) -/

/-- Embedding of `classify_clause`: the priority-ordered keyword rules,
first match wins, `"Other"` when nothing matches. -/
def classify_clause (clause : String) : String :=
  let clause_lower := lowerStr clause
  if ["terminate", "termination"].any (fun w => kwIn w clause_lower) then
    "Termination Clause"
  else if kwIn "confidential" clause_lower || kwIn "non-disclosure" clause_lower then
    "Confidentiality Clause"
  else if ["liability", "liable", "indemnify", "indemnity"].any
      (fun w => kwIn w clause_lower) then
    "Liability Clause"
  else if ["intellectual property", "ip rights", "copyright", "trademark"].any
      (fun w => kwIn w clause_lower) then
    "Intellectual Property Clause"
  else if kwIn "governing law" clause_lower || kwIn "governed by the laws" clause_lower then
    "Governing Law Clause"
  else if ["notice shall", "written notice", "registered mail"].any
      (fun w => kwIn w clause_lower) then
    "Notice Clause"
  else if kwIn "may not assign" clause_lower || kwIn "assign this agreement" clause_lower then
    "Assignment Clause"
  else if ["payment", "salary", "fee", "compensation", "amount", "consideration",
      "wage", "remuneration"].any (fun w => kwIn w clause_lower) then
    "Payment Clause"
  else
    "Other"

/-- The spec's view of the classifier: an ordered list of
(keyword list, tag) rules, evaluated first-match-wins (spec §4.3). -/
def classificationRules : List (List String × String) :=
  [ (["terminate", "termination"], "Termination Clause"),
    (["confidential", "non-disclosure"], "Confidentiality Clause"),
    (["liability", "liable", "indemnify", "indemnity"], "Liability Clause"),
    (["intellectual property", "ip rights", "copyright", "trademark"],
      "Intellectual Property Clause"),
    (["governing law", "governed by the laws"], "Governing Law Clause"),
    (["notice shall", "written notice", "registered mail"], "Notice Clause"),
    (["may not assign", "assign this agreement"], "Assignment Clause"),
    (["payment", "salary", "fee", "compensation", "amount", "consideration",
      "wage", "remuneration"], "Payment Clause") ]

/-- Modelled from the spec: return the tag of the FIRST rule whose keyword
list has a substring match against the lowercased clause; `"Other"` if no
rule matches. -/
def classifyByRules : List (List String × String) → String → String
  | [], _ => "Other"
  | (kws, tag) :: rest, clause_lower =>
    if kws.any (fun w => kwIn w clause_lower) then tag
    else classifyByRules rest clause_lower

end ContractAI

namespace ContractAI

/-! ### Text normalizer (`preprocess_text`, src/clause_extraction.py) -/

/-- Characters of the regex class `[ \t]`. -/
def isSpTab (c : Char) : Bool := c == ' ' || c == '\t'

/-- Whitespace removed by Python's `str.strip()` (ASCII whitespace). -/
def isPyWs (c : Char) : Bool :=
  c == ' ' || c == '\t' || c == '\n' || c == '\r' || c == '\x0b' || c == '\x0c'

/-- Python `text.replace("\r\n", "\n")`: left-to-right, non-overlapping. -/
def replCRLF : List Char → List Char
  | [] => []
  | [c] => [c]
  | c :: d :: rest =>
    if c == '\r' && d == '\n' then '\n' :: replCRLF rest
    else c :: replCRLF (d :: rest)

/-- Python `text.replace("\r", "\n")`. -/
def replCR (l : List Char) : List Char :=
  l.map (fun c => if c == '\r' then '\n' else c)

/-- Python `re.sub(p+, " ", text)` for a character class `p`: each maximal
run of `p`-characters becomes a single space.  Instantiated at `isSpTab`
for `preprocess_text` and at newlines for `split_into_clauses`. -/
def collapseRuns (p : Char → Bool) : List Char → List Char
  | [] => []
  | [c] => if p c then [' '] else [c]
  | c :: d :: rest =>
    if p c then
      if p d then collapseRuns p (d :: rest)
      else ' ' :: collapseRuns p (d :: rest)
    else c :: collapseRuns p (d :: rest)

/-- Python `str.lstrip()` over characters. -/
def lstrip (l : List Char) : List Char := l.dropWhile isPyWs

/-- Python `str.rstrip()` over characters (drops the trailing
whitespace run). -/
def rstrip : List Char → List Char
  | [] => []
  | c :: rest =>
    match rstrip rest with
    | [] => if isPyWs c then [] else [c]
    | r => c :: r

/-- Python `str.strip()`. -/
def stripPy (l : List Char) : List Char := rstrip (lstrip l)

/-- Embedding of `preprocess_text`: normalize line endings, collapse runs
of horizontal whitespace to one space, trim both ends. -/
def preprocess_text (s : String) : String :=
  String.mk (stripPy (collapseRuns isSpTab (replCR (replCRLF s.data))))

/-- No two adjacent characters both satisfy `p`. -/
def noPair (p : Char → Bool) : List Char → Bool
  | [] => true
  | [_] => true
  | a :: b :: rest => !(p a && p b) && noPair p (b :: rest)

theorem noPair_cons {p a} {l : List Char} (h : noPair p (a :: l) = true) :
    noPair p l = true := by
  cases l with
  | nil => simp [noPair]
  | cons b t =>
    simp only [noPair, Bool.and_eq_true] at h
    exact h.2

theorem noPair_cons_of_not {p} {c : Char} {l : List Char}
    (hc : p c = false) (h : noPair p l = true) : noPair p (c :: l) = true := by
  cases l with
  | nil => simp [noPair]
  | cons b t => simp [noPair, hc, h]

theorem noPair_cons_next {p} {c d : Char} {l : List Char}
    (hd : p d = false) (h : noPair p (d :: l) = true) :
    noPair p (c :: d :: l) = true := by
  simp [noPair, hd, h]

theorem bool_eq_false {b : Bool} (h : ¬b = true) : b = false := by
  cases b
  · rfl
  · exact absurd rfl h

theorem noPair_pair {p} {a b : Char} {l : List Char}
    (h : noPair p (a :: b :: l) = true) : (p a && p b) = false := by
  simp only [noPair, Bool.and_eq_true] at h
  have h1 := h.1
  cases hab : (p a && p b)
  · rfl
  · rw [hab] at h1
    simp at h1

theorem replCR_noCR (l : List Char) : ∀ c ∈ replCR l, c ≠ '\r' := by
  intro x hx
  simp only [replCR, List.mem_map] at hx
  obtain ⟨c, -, rfl⟩ := hx
  split
  · decide
  · next h => simpa using h

theorem replCRLF_eq_self :
    ∀ {l : List Char}, (∀ c ∈ l, c ≠ '\r') → replCRLF l = l
  | [], _ => rfl
  | [c], _ => rfl
  | c :: d :: rest, h => by
    have hc : (c == '\r') = false := by
      simpa using h c (by simp)
    have hrec := replCRLF_eq_self (l := d :: rest)
      (fun x hx => h x (List.mem_cons_of_mem c hx))
    simp [replCRLF, hc, hrec]

theorem replCR_eq_self {l : List Char} (h : ∀ c ∈ l, c ≠ '\r') :
    replCR l = l := by
  induction l with
  | nil => rfl
  | cons c rest ih =>
    have hc : (c == '\r') = false := by simpa using h c (by simp)
    simp only [replCR, List.map_cons, hc, Bool.false_eq_true, if_false,
      List.cons.injEq, true_and]
    exact ih fun x hx => h x (List.mem_cons_of_mem c hx)

/-- Every `p`-character that `collapseRuns p` outputs is a plain space. -/
theorem collapseRuns_spaces (p) :
    ∀ l : List Char, ∀ c ∈ collapseRuns p l, p c = true → c = ' '
  | [] => by simp [collapseRuns]
  | [c] => by
    by_cases h : p c = true <;> simp [collapseRuns, h]
  | c :: d :: rest => by
    have ih := collapseRuns_spaces p (d :: rest)
    by_cases hc : p c = true <;> by_cases hd : p d = true <;>
      simp only [collapseRuns, hc, hd, if_true, if_false] <;>
      intro x hx hpx
    · exact ih x hx hpx
    · rcases List.mem_cons.mp hx with rfl | hx'
      · rfl
      · exact ih x hx' hpx
    · rcases List.mem_cons.mp hx with rfl | hx'
      · exact absurd hpx (by simp [hc])
      · exact ih x hx' hpx
    · rcases List.mem_cons.mp hx with rfl | hx'
      · exact absurd hpx (by simp [hc])
      · exact ih x hx' hpx

/-- Every character `collapseRuns p` outputs is a space or comes from the
input. -/
theorem collapseRuns_mem (p) :
    ∀ l : List Char, ∀ c ∈ collapseRuns p l, c = ' ' ∨ c ∈ l
  | [] => by simp [collapseRuns]
  | [c] => by
    by_cases h : p c = true <;> simp [collapseRuns, h]
  | c :: d :: rest => by
    have ih := collapseRuns_mem p (d :: rest)
    by_cases hc : p c = true <;> by_cases hd : p d = true <;>
      simp only [collapseRuns, hc, hd, if_true, if_false] <;>
      intro x hx
    · rcases ih x hx with h | h
      · exact Or.inl h
      · exact Or.inr (List.mem_cons_of_mem c h)
    · rcases List.mem_cons.mp hx with rfl | hx'
      · exact Or.inl rfl
      · rcases ih x hx' with h | h
        · exact Or.inl h
        · exact Or.inr (List.mem_cons_of_mem c h)
    · rcases List.mem_cons.mp hx with rfl | hx'
      · exact Or.inr (by simp)
      · rcases ih x hx' with h | h
        · exact Or.inl h
        · exact Or.inr (List.mem_cons_of_mem c h)
    · rcases List.mem_cons.mp hx with rfl | hx'
      · exact Or.inr (by simp)
      · rcases ih x hx' with h | h
        · exact Or.inl h
        · exact Or.inr (List.mem_cons_of_mem c h)

/-- When the head fails `p`, `collapseRuns p` keeps the head. -/
theorem collapseRuns_cons_not {p} {d : Char} (hd : p d = false) (rest : List Char) :
    collapseRuns p (d :: rest) = d :: collapseRuns p rest := by
  cases rest with
  | nil => simp [collapseRuns, hd]
  | cons e t => simp [collapseRuns, hd]

/-- The output of `collapseRuns p` has no two adjacent `p`-characters. -/
theorem collapseRuns_noPair (p) :
    ∀ l : List Char, noPair p (collapseRuns p l) = true
  | [] => by simp [collapseRuns, noPair]
  | [c] => by by_cases h : p c = true <;> simp [collapseRuns, h, noPair]
  | c :: d :: rest => by
    have ih := collapseRuns_noPair p (d :: rest)
    by_cases hc : p c = true <;> cases hd : p d
    · rw [show collapseRuns p (c :: d :: rest)
        = ' ' :: collapseRuns p (d :: rest) by simp [collapseRuns, hc, hd]]
      rw [collapseRuns_cons_not hd] at ih ⊢
      exact noPair_cons_next hd ih
    · simp [collapseRuns, hc, hd, ih]
    · rw [show collapseRuns p (c :: d :: rest)
        = c :: collapseRuns p (d :: rest) by simp [collapseRuns, hc]]
      exact noPair_cons_of_not (bool_eq_false hc) ih
    · rw [show collapseRuns p (c :: d :: rest)
        = c :: collapseRuns p (d :: rest) by simp [collapseRuns, hc]]
      exact noPair_cons_of_not (bool_eq_false hc) ih

/-- On text whose `p`-characters are all plain spaces with no two
adjacent, `collapseRuns p` is the identity. -/
theorem collapseRuns_eq_self {p} :
    ∀ {l : List Char}, (∀ c ∈ l, p c = true → c = ' ') →
      noPair p l = true → collapseRuns p l = l
  | [], _, _ => rfl
  | [c], hok, _ => by
    by_cases hp : p c = true
    · have hc : c = ' ' := hok c (by simp) hp
      simp [collapseRuns, hp, hc]
    · simp [collapseRuns, hp]
  | c :: d :: rest, hok, hnp => by
    have htl : ∀ x ∈ d :: rest, p x = true → x = ' ' :=
      fun x hx => hok x (List.mem_cons_of_mem c hx)
    have ih := collapseRuns_eq_self htl (noPair_cons hnp)
    by_cases hp : p c = true
    · have hc : c = ' ' := hok c (by simp) hp
      have hd : p d = false := by
        have h2 := noPair_pair hnp
        rw [hp] at h2
        simpa using h2
      simp [collapseRuns, hp, hd, ih, hc]
    · simp [collapseRuns, hp, ih]

theorem lstrip_subset : ∀ l : List Char, ∀ c ∈ lstrip l, c ∈ l
  | [] => by simp [lstrip]
  | c :: rest => by
    have ih := lstrip_subset rest
    by_cases h : isPyWs c = true
    · simp only [lstrip, List.dropWhile_cons, h, if_true]
      exact fun x hx => List.mem_cons_of_mem c (ih x hx)
    · simp [lstrip, List.dropWhile_cons, h]

theorem lstrip_head : ∀ l : List Char, ∀ c, (lstrip l).head? = some c → isPyWs c = false
  | [] => by simp [lstrip]
  | c :: rest => by
    have ih := lstrip_head rest
    by_cases h : isPyWs c = true
    · simpa only [lstrip, List.dropWhile_cons, h, if_true] using ih
    · intro x hx
      rw [lstrip, List.dropWhile_cons, if_neg h] at hx
      simp only [List.head?_cons, Option.some.injEq] at hx
      rw [← hx]
      exact bool_eq_false h

theorem lstrip_noPair {p} : ∀ {l : List Char}, noPair p l = true →
    noPair p (lstrip l) = true
  | [], h => by simpa [lstrip] using h
  | c :: rest, h => by
    by_cases hc : isPyWs c = true
    · have := lstrip_noPair (noPair_cons h)
      simpa [lstrip, List.dropWhile_cons, hc] using this
    · simpa [lstrip, List.dropWhile_cons, hc] using h

theorem lstrip_eq_self : ∀ {l : List Char},
    (∀ c, l.head? = some c → isPyWs c = false) → lstrip l = l
  | [], _ => rfl
  | c :: rest, h => by
    have hc : isPyWs c = false := h c (by simp)
    simp [lstrip, List.dropWhile_cons, hc]

theorem rstrip_cons_ne {c : Char} {rest : List Char} {r : Char} {rs : List Char}
    (h : rstrip rest = r :: rs) : rstrip (c :: rest) = c :: r :: rs := by
  simp [rstrip, h]

theorem rstrip_subset : ∀ l : List Char, ∀ c ∈ rstrip l, c ∈ l
  | [] => by simp [rstrip]
  | c :: rest => by
    have ih := rstrip_subset rest
    cases h : rstrip rest with
    | nil =>
      by_cases hc : isPyWs c = true <;> simp [rstrip, h, hc]
    | cons r rs =>
      simp only [rstrip, h]
      intro x hx
      rcases List.mem_cons.mp hx with rfl | hx'
      · exact List.mem_cons_self _ _
      · exact List.mem_cons_of_mem c (ih x (by rw [h]; exact hx'))

theorem rstrip_head : ∀ l : List Char, rstrip l = [] ∨ (rstrip l).head? = l.head?
  | [] => Or.inl rfl
  | c :: rest => by
    cases h : rstrip rest with
    | nil =>
      by_cases hc : isPyWs c = true
      · exact Or.inl (by simp [rstrip, h, hc])
      · exact Or.inr (by simp [rstrip, h, hc])
    | cons r rs => exact Or.inr (by simp [rstrip, h])

theorem rstrip_noPair {p} : ∀ {l : List Char}, noPair p l = true →
    noPair p (rstrip l) = true
  | [], _ => by simp [rstrip, noPair]
  | c :: rest, h => by
    have ih := rstrip_noPair (p := p) (noPair_cons h)
    cases hr : rstrip rest with
    | nil =>
      by_cases hc : isPyWs c = true <;> simp [rstrip, hr, hc, noPair]
    | cons r rs =>
      rw [hr] at ih
      have hgoal : rstrip (c :: rest) = c :: r :: rs := by simp [rstrip, hr]
      rw [hgoal]
      rcases rstrip_head rest with h0 | h0
      · rw [h0] at hr
        cases hr
      · rw [hr] at h0
        cases rest with
        | nil => simp [rstrip] at hr
        | cons b t =>
          have hrb : r = b := by simpa using h0
          subst hrb
          have hpair := noPair_pair h
          simp [noPair, hpair, ih]

theorem rstrip_idem : ∀ l : List Char, rstrip (rstrip l) = rstrip l
  | [] => rfl
  | c :: rest => by
    have ih := rstrip_idem rest
    cases h : rstrip rest with
    | nil =>
      by_cases hc : isPyWs c = true
      · simp [rstrip, h, hc]
      · simp [rstrip, h, hc]
    | cons r rs =>
      rw [h] at ih
      rw [rstrip_cons_ne h, rstrip_cons_ne ih]

theorem stripPy_subset (l : List Char) : ∀ c ∈ stripPy l, c ∈ l :=
  fun c hc => lstrip_subset l c (rstrip_subset (lstrip l) c hc)

theorem stripPy_noPair {p} {l : List Char} (h : noPair p l = true) :
    noPair p (stripPy l) = true :=
  rstrip_noPair (lstrip_noPair h)

theorem stripPy_idem (l : List Char) : stripPy (stripPy l) = stripPy l := by
  unfold stripPy
  have hl : lstrip (rstrip (lstrip l)) = rstrip (lstrip l) := by
    apply lstrip_eq_self
    intro c hc
    rcases rstrip_head (lstrip l) with h0 | h0
    · rw [h0] at hc
      simp at hc
    · rw [h0] at hc
      exact lstrip_head l c hc
  rw [hl, rstrip_idem]

/-! ### Clause segmenter (`split_into_clauses`, src/clause_extraction.py)

The Python implementation splits on the MULTILINE regex
`(?:\n{2,}|^\d{1,2}\.\s|^\d{1,2}\.\d{1,2}\s)` via `re.split`, which scans
left to right, at each position trying the alternatives in order (the
newline run is greedy; the `^` anchor holds at position 0 or right after a
newline) and, on a match, emits the piece accumulated since the previous
match end.  The scanner below mirrors this; `fuel` only drives
termination and is initialised with the text length, a bound on the
number of scanning steps. -/

/-- Regex `\s` on the ASCII range (Python additionally accepts exotic
Unicode whitespace, which this corpus never contains). -/
def isWsRe (c : Char) : Bool :=
  c == ' ' || c == '\t' || c == '\n' || c == '\r' || c == '\x0b' || c == '\x0c'

/-- Length of the leading newline run (the greedy `\n{2,}` matcher). -/
def countNl : List Char → Nat
  | [] => 0
  | c :: rest => if c == '\n' then countNl rest + 1 else 0

/-- Greedy matcher for `\d{1,2}\.\s` at the current position (two digits
preferred, backtracking to one); returns the matched length. -/
def alt2 : List Char → Option Nat
  | a :: b :: c :: d :: _ =>
    if a.isDigit && b.isDigit && c == '.' && isWsRe d then some 4
    else if a.isDigit && b == '.' && isWsRe c then some 3
    else none
  | [a, b, c] =>
    if a.isDigit && b == '.' && isWsRe c then some 3
    else none
  | _ => none

/-- Greedy matcher for `\d{1,2}\.\d{1,2}\s` at the current position,
trying digit-group lengths in backtracking order (2,2), (2,1), (1,2),
(1,1). -/
def alt3 : List Char → Option Nat
  | a :: b :: c :: d :: e :: f :: _ =>
    if a.isDigit && b.isDigit && c == '.' && d.isDigit && e.isDigit && isWsRe f then some 6
    else if a.isDigit && b.isDigit && c == '.' && d.isDigit && isWsRe e then some 5
    else if a.isDigit && b == '.' && c.isDigit && d.isDigit && isWsRe e then some 5
    else if a.isDigit && b == '.' && c.isDigit && isWsRe d then some 4
    else none
  | [a, b, c, d, e] =>
    if a.isDigit && b.isDigit && c == '.' && d.isDigit && isWsRe e then some 5
    else if a.isDigit && b == '.' && c.isDigit && d.isDigit && isWsRe e then some 5
    else if a.isDigit && b == '.' && c.isDigit && isWsRe d then some 4
    else none
  | [a, b, c, d] =>
    if a.isDigit && b == '.' && c.isDigit && isWsRe d then some 4
    else none
  | _ => none

/-- One alternation step of the split pattern at the current position.
The heading alternatives are anchored by the MULTILINE `^`. -/
def matchPat (l : List Char) (atStart : Bool) : Option Nat :=
  if 2 ≤ countNl l then some (countNl l)
  else if atStart then
    match alt2 l with
    | some n => some n
    | none => alt3 l
  else none

/-- Whether the last of the `n` consumed characters is a newline (the
`^` anchor state right after a match). -/
def lastNl (l : List Char) (n : Nat) : Bool :=
  (l.take n).getLast? == some '\n'

/-- The `re.split` scanner: emits the pieces of text between successive
non-overlapping matches, scanning left to right. -/
def scanSplitF : Nat → List Char → Bool → List Char → List (List Char)
  | _, [], _, acc => [acc]
  | 0, l, _, acc => [acc ++ l]
  | fuel + 1, c :: rest, atStart, acc =>
    match matchPat (c :: rest) atStart with
    | some n =>
      acc :: scanSplitF fuel ((c :: rest).drop n) (lastNl (c :: rest) n) []
    | none => scanSplitF fuel rest (c == '\n') (acc ++ [c])

/-- Python `re.fullmatch(r"[a-zA-Z]|i+|v+|x+", clause.lower())`:
a bare single letter or roman-numeral-ish token. -/
def bareTok (c : List Char) : Bool :=
  let lc := c.map Char.toLower
  (lc.length == 1 && lc.all (fun x => x.isAlpha))
    || (!lc.isEmpty && lc.all (fun x => x == 'i'))
    || (!lc.isEmpty && lc.all (fun x => x == 'v'))
    || (!lc.isEmpty && lc.all (fun x => x == 'x'))

/-- The character class of `re.sub(r"\n+", " ", clause)`. -/
def isNl (c : Char) : Bool := c == '\n'

/-- The filtering loop of `split_into_clauses`: strip, drop fragments
shorter than 50 characters, drop bare letter/roman-numeral tokens,
collapse internal newlines to single spaces. -/
def cleanFrag (clause : List Char) : Option (List Char) :=
  let c := stripPy clause
  if c.length < 50 then none
  else if bareTok c then none
  else some (collapseRuns isNl c)

/-- Embedding of `split_into_clauses`. -/
def split_into_clauses (text : String) : List String :=
  ((scanSplitF text.data.length text.data true []).filterMap cleanFrag).map
    fun l => String.mk l

theorem alt2_pos {l : List Char} {n : Nat} (h : alt2 l = some n) : 1 ≤ n := by
  unfold alt2 at h
  split at h <;> (try split_ifs at h) <;> simp_all <;> omega

theorem alt3_pos {l : List Char} {n : Nat} (h : alt3 l = some n) : 1 ≤ n := by
  unfold alt3 at h
  split at h <;> (try split_ifs at h) <;> simp_all <;> omega

theorem matchPat_pos {l : List Char} {atStart : Bool} {n : Nat}
    (h : matchPat l atStart = some n) : 1 ≤ n := by
  unfold matchPat at h
  split_ifs at h with h1 h2
  · injection h with h'
    omega
  · cases h3 : alt2 l with
    | some m =>
      rw [h3] at h
      injection h with h'
      exact h' ▸ alt2_pos h3
    | none =>
      rw [h3] at h
      exact alt3_pos h

theorem countNl_two {rest : List Char} (h : rest.head? = some '\n') :
    2 ≤ countNl ('\n' :: rest) := by
  cases rest with
  | nil => simp at h
  | cons b t =>
    have hb : b = '\n' := by simpa using h
    subst hb
    simp [countNl]

/-- If no alternative matches at this position, the current character and
the next one are not both newlines. -/
theorem matchPat_none_nl {c : Char} {rest : List Char} {atStart : Bool}
    (h : matchPat (c :: rest) atStart = none) :
    ¬(c = '\n' ∧ rest.head? = some '\n') := by
  rintro ⟨rfl, hh⟩
  have h2 := countNl_two hh
  unfold matchPat at h
  rw [if_pos h2] at h
  cases h

theorem noPair_append_one {p} :
    ∀ {l : List Char} {c : Char}, noPair p l = true →
      (∀ a, l.getLast? = some a → (p a && p c) = false) →
      noPair p (l ++ [c]) = true
  | [], c, _, _ => by simp [noPair]
  | [a], c, _, hlast => by
    simp [noPair, hlast a rfl]
  | a :: b :: t, c, h, hlast => by
    have ih := noPair_append_one (p := p) (l := b :: t) (c := c)
      (noPair_cons h)
      (fun x hx => hlast x (by rw [List.getLast?_cons_cons]; exact hx))
    have hpair := noPair_pair h
    simpa [noPair, hpair] using ih

/-- Pieces produced by the split scanner never contain two adjacent
newlines: any maximal newline run of length ≥ 2 is consumed as a match
boundary. -/
theorem scanSplitF_noPair :
    ∀ fuel (l : List Char) (atStart : Bool) (acc : List Char),
      l.length ≤ fuel →
      noPair isNl acc = true →
      ¬(acc.getLast? = some '\n' ∧ l.head? = some '\n') →
      ∀ pc ∈ scanSplitF fuel l atStart acc, noPair isNl pc = true := by
  intro fuel
  induction fuel with
  | zero =>
    intro l atStart acc hlen hacc _ pc hpc
    have hl : l = [] := List.length_eq_zero.mp (Nat.le_zero.mp hlen)
    subst hl
    simp only [scanSplitF, List.mem_singleton] at hpc
    exact hpc ▸ hacc
  | succ fuel ih =>
    intro l atStart acc hlen hacc hlast pc hpc
    cases l with
    | nil =>
      simp only [scanSplitF, List.mem_singleton] at hpc
      exact hpc ▸ hacc
    | cons c rest =>
      rw [scanSplitF] at hpc
      cases hm : matchPat (c :: rest) atStart with
      | some n =>
        rw [hm] at hpc
        rcases List.mem_cons.mp hpc with rfl | hpc'
        · exact hacc
        · have hn := matchPat_pos hm
          refine ih _ _ [] ?_ (by simp [noPair]) (by simp) pc hpc'
          rw [List.length_drop]
          simp only [List.length_cons] at hlen ⊢
          omega
      | none =>
        rw [hm] at hpc
        have hnl := matchPat_none_nl hm
        refine ih rest (c == '\n') (acc ++ [c]) ?_ ?_ ?_ pc hpc
        · simp only [List.length_cons] at hlen
          omega
        · refine noPair_append_one hacc ?_
          intro a ha
          cases hpa : isNl a
          · simp
          · cases hpc2 : isNl c
            · simp
            · exfalso
              have ha' : a = '\n' := by simpa [isNl] using hpa
              have hc' : c = '\n' := by simpa [isNl] using hpc2
              exact hlast ⟨ha' ▸ ha, by simp [hc']⟩
        · rintro ⟨hlc, hond⟩
          rw [List.getLast?_concat] at hlc
          have hc' : c = '\n' := by simpa using hlc
          exact hnl ⟨hc', hond⟩

/-- `collapseRuns p` preserves length when no two adjacent characters
satisfy `p` (each run has length one). -/
theorem collapseRuns_length {p} :
    ∀ {l : List Char}, noPair p l = true →
      (collapseRuns p l).length = l.length
  | [], _ => rfl
  | [c], _ => by by_cases h : p c = true <;> simp [collapseRuns, h]
  | c :: d :: rest, h => by
    have ih := collapseRuns_length (l := d :: rest) (noPair_cons h)
    by_cases hc : p c = true
    · have hd : p d = false := by
        have h2 := noPair_pair h
        rw [hc] at h2
        simpa using h2
      simp [collapseRuns, hc, hd, ih]
    · simp [collapseRuns, hc, ih]

/-- `collapseRuns p` is the identity when no character satisfies `p`. -/
theorem collapseRuns_id_of_none {p} :
    ∀ {l : List Char}, (∀ c ∈ l, p c = false) → collapseRuns p l = l
  | [], _ => rfl
  | [c], h => by simp [collapseRuns, h c (by simp)]
  | c :: d :: rest, h => by
    have ih := collapseRuns_id_of_none (l := d :: rest)
      (fun x hx => h x (List.mem_cons_of_mem c hx))
    simp [collapseRuns, h c (by simp), ih]

/-- If some character satisfies `p`, the collapsed text contains a
space. -/
theorem collapseRuns_mem_space {p} :
    ∀ {l : List Char}, (∃ c ∈ l, p c = true) → ' ' ∈ collapseRuns p l
  | [], h => by simp at h
  | [c], h => by
    obtain ⟨x, hx, hpx⟩ := h
    rcases List.mem_singleton.mp hx with rfl
    simp [collapseRuns, hpx]
  | c :: d :: rest, h => by
    by_cases hc : p c = true
    · by_cases hd : p d = true
      · have ih := collapseRuns_mem_space (l := d :: rest) ⟨d, by simp, hd⟩
        simpa [collapseRuns, hc, hd] using ih
      · simp [collapseRuns, hc, hd]
    · obtain ⟨x, hx, hpx⟩ := h
      rcases List.mem_cons.mp hx with rfl | hx'
      · exact absurd hpx (by simp [hc])
      · have ih := collapseRuns_mem_space (l := d :: rest) ⟨x, hx', hpx⟩
        rw [collapseRuns_cons_not (bool_eq_false hc)]
        exact List.mem_cons_of_mem c ih

/-- A fragment containing a space is not a bare token. -/
theorem bareTok_no_space {l : List Char} (h : ' ' ∈ l) : bareTok l = false := by
  cases hb : bareTok l
  · rfl
  · exfalso
    have hsp : ' ' ∈ l.map Char.toLower := by
      refine List.mem_map.mpr ⟨' ', h, ?_⟩
      decide
    unfold bareTok at hb
    simp only [Bool.or_eq_true, Bool.and_eq_true] at hb
    rcases hb with ((h1 | h2) | h3) | h4
    · exact absurd (List.all_eq_true.mp h1.2 ' ' hsp) (by decide)
    · exact absurd (List.all_eq_true.mp h2.2 ' ' hsp) (by decide)
    · exact absurd (List.all_eq_true.mp h3.2 ' ' hsp) (by decide)
    · exact absurd (List.all_eq_true.mp h4.2 ' ' hsp) (by decide)

/-- What `cleanFrag` outputs is at least 50 characters long and not a bare
token, as long as the incoming piece has no adjacent newlines. -/
theorem cleanFrag_prop {piece out : List Char}
    (hnp : noPair isNl piece = true) (h : cleanFrag piece = some out) :
    50 ≤ out.length ∧ bareTok out = false := by
  simp only [cleanFrag] at h
  split_ifs at h with h1 h2
  injection h with h
  subst h
  have hcnp : noPair isNl (stripPy piece) = true := stripPy_noPair hnp
  constructor
  · rw [collapseRuns_length hcnp]
    omega
  · by_cases hnl : ∃ x ∈ stripPy piece, isNl x = true
    · exact bareTok_no_space (collapseRuns_mem_space hnl)
    · have hall : ∀ x ∈ stripPy piece, isNl x = false := by
        intro x hx
        cases hix : isNl x
        · rfl
        · exact absurd ⟨x, hx, hix⟩ hnl
      rw [collapseRuns_id_of_none hall]
      exact bool_eq_false h2

/-- **C8** Every fragment output by the clause segmenter has length at
least 50 and is not a bare single-letter or roman-numeral token; and
segmenting the empty string yields an empty sequence rather than an
error. -/
theorem split_into_clauses_fragments_ok (text : String) :
    (∀ f ∈ split_into_clauses text, 50 ≤ f.length ∧ bareTok f.data = false) ∧
    split_into_clauses "" = [] := by
  constructor
  · intro f hf
    unfold split_into_clauses at hf
    simp only [List.mem_map, List.mem_filterMap] at hf
    obtain ⟨g, ⟨piece, hpiece, hclean⟩, rfl⟩ := hf
    have hnp : noPair isNl piece = true :=
      scanSplitF_noPair _ _ _ _ le_rfl (by simp [noPair]) (by simp) piece hpiece
    exact cleanFrag_prop hnp hclean
  · decide

/-- Application of `split_into_clauses_fragments_ok` to a concrete text
that survives the segmenter unchanged. -/
theorem split_into_clauses_fragments_ok_app :
    "The quick brown fox jumps over the lazy dog repeatedly today."
      ∈ split_into_clauses
        "The quick brown fox jumps over the lazy dog repeatedly today." ∧
    (50 ≤ ("The quick brown fox jumps over the lazy dog repeatedly today." :
        String).length ∧
      bareTok ("The quick brown fox jumps over the lazy dog repeatedly today." :
        String).data = false) :=
  ⟨by decide,
    (split_into_clauses_fragments_ok
      "The quick brown fox jumps over the lazy dog repeatedly today.").1 _
      (by decide)⟩

/-- **C7** The text normalizer is idempotent: normalizing
already-normalized text is a no-op. -/
theorem preprocess_text_idempotent (s : String) :
    preprocess_text (preprocess_text s) = preprocess_text s := by
  unfold preprocess_text
  show String.mk (stripPy (collapseRuns isSpTab (replCR (replCRLF
      (stripPy (collapseRuns isSpTab (replCR (replCRLF s.data)))))))) = _
  set q := collapseRuns isSpTab (replCR (replCRLF s.data)) with hq
  set p := stripPy q with hp
  have hNoCRq : ∀ c ∈ q, c ≠ '\r' := by
    intro c hc
    rcases collapseRuns_mem isSpTab _ c hc with h | h
    · rw [h]
      decide
    · exact replCR_noCR _ c h
  have hNoCR : ∀ c ∈ p, c ≠ '\r' := fun c hc => hNoCRq c (stripPy_subset q c hc)
  have hSp : ∀ c ∈ p, isSpTab c = true → c = ' ' :=
    fun c hc => collapseRuns_spaces isSpTab _ c (stripPy_subset q c hc)
  have hNP : noPair isSpTab p = true := stripPy_noPair (collapseRuns_noPair _ _)
  rw [replCRLF_eq_self hNoCR, replCR_eq_self hNoCR,
    collapseRuns_eq_self hSp hNP, hp, stripPy_idem]

/-! ### Precedent corpus and retrieval engine (src/retrieval_engine.py) -/

structure PrecedentEntry where
  contract_type : String
  clause_type : String
  text : String
deriving DecidableEq

def TOP_K : Nat := 2

/-- Minimum cosine similarity to accept a match. -/
def SIMILARITY_THRESHOLD : ℚ := 0.45

/-- The static precedent database, in source order. -/
def precedents : List PrecedentEntry :=
  [ ⟨"Employment", "Payment Clause",
      "Salary must be paid within 30 days of invoice receipt."⟩,
    ⟨"Employment", "Payment Clause",
      "Employee compensation includes bonus and stock options."⟩,
    ⟨"Employment", "Termination Clause",
      "Either party may terminate employment with 60 days written notice."⟩,
    ⟨"Employment", "Confidentiality Clause",
      "Employee shall not disclose confidential information during employment."⟩,
    ⟨"NDA", "Confidentiality Clause",
      "Confidential information shall not be disclosed for 5 years."⟩,
    ⟨"NDA", "Confidentiality Clause",
      "The receiving party must protect proprietary information."⟩,
    ⟨"Service", "Payment Clause",
      "Service fees shall be invoiced monthly and payable within 30 days of receipt."⟩,
    ⟨"Service", "Liability Clause",
      "The provider’s aggregate liability shall not exceed the fees paid in the previous 12 months."⟩,
    ⟨"Service", "Termination Clause",
      "Either party may terminate this Agreement for convenience upon 30 days written notice."⟩,
    ⟨"Service", "Confidentiality Clause",
      "The service provider shall keep all customer data confidential and use it only to perform the services."⟩,
    ⟨"Vendor", "Payment Clause",
      "Buyer shall pay all undisputed invoices within 45 days of receipt."⟩,
    ⟨"Vendor", "Intellectual Property Clause",
      "All custom deliverables created under this Agreement shall be owned by the Buyer upon full payment."⟩,
    ⟨"Vendor", "Liability Clause",
      "Vendor shall be liable only for direct damages and excludes liability for loss of profits or consequential damages."⟩,
    ⟨"Vendor", "Termination Clause",
      "Buyer may terminate this Agreement immediately upon Vendor’s material breach that remains uncured for 30 days."⟩,
    ⟨"Lease", "Payment Clause",
      "Tenant shall pay monthly rent on or before the 5th day of each calendar month."⟩,
    ⟨"Lease", "Termination Clause",
      "Either party may terminate this Lease upon 60 days prior written notice after the initial term."⟩,
    ⟨"Lease", "Liability Clause",
      "The landlord shall not be liable for any loss or damage to Tenant’s personal property, except where caused by landlord’s gross negligence."⟩,
    ⟨"Lease", "Governing Law Clause",
      "This Lease shall be governed by and construed in accordance with the laws of the State in which the premises are located."⟩ ]

/-- `metadata_store[(contract_type, clause_type)]`: the texts of the
group, in corpus insertion order.  The FAISS index for a key exists in
`indexes` exactly when this list is nonempty. -/
def groupTexts (contract_type clause_type : String) : List String :=
  (precedents.filter fun p =>
    p.contract_type == contract_type && p.clause_type == clause_type).map
    fun p => p.text

/-- Inner product of two embedding vectors (on unit vectors this is the
cosine similarity `IndexFlatIP` scores by). -/
def dotQ (u v : List ℚ) : ℚ := (List.zipWith (fun a b => a * b) u v).sum

/-- Python `round(score, 4)`.  (Python rounds exact four-decimal
midpoints to even; the model rounds them up — the two agree everywhere
else, and no claim exercises an exact midpoint.) -/
def round4 (q : ℚ) : ℚ := ((q * 10000 + 1 / 2).floor : ℤ) / 10000

structure SimilarityMatch where
  text : String
  score : ℚ
deriving DecidableEq

/-- `faiss.IndexFlatIP.search`: exact top-`k` selection of the stored
vectors by descending inner product, stable on ties (insertion order of
the group's texts). -/
def searchTop (scores : List ℚ) (k : Nat) : List (Nat × ℚ) :=
  (List.insertionSort (fun a b : Nat × ℚ => b.2 ≤ a.2) scores.enum).take k

/-- Embedding of `retrieve_similar`.  The external sentence-transformer
together with the float `normalize_vectors` step is abstracted as the
parameter `encode`; since the corpus and the model are fixed process-wide,
the build-once index over a group is interchangeable with re-encoding the
group's texts with the same `encode`. -/
def retrieve_similar (encode : String → List ℚ)
    (clause_text contract_type clause_type : String) (top_k : Nat) :
    List SimilarityMatch :=
  if clause_text = "" then []
  else
    let stored_texts := groupTexts contract_type clause_type
    if stored_texts = [] then []
    else
      let query_vector := encode clause_text
      let hits := searchTop
        (stored_texts.map fun t => dotQ query_vector (encode t))
        (min top_k stored_texts.length)
      (hits.filter fun h => !decide (h.2 < SIMILARITY_THRESHOLD)).map
        fun h => ⟨stored_texts.getD h.1 "", round4 h.2⟩

theorem ratFloor_eq_intFloor (q : ℚ) : Rat.floor q = ⌊q⌋ := by
  rw [Rat.floor_def', Rat.floor_def]

theorem round4_mono {a b : ℚ} (h : a ≤ b) : round4 a ≤ round4 b := by
  unfold round4
  rw [ratFloor_eq_intFloor, ratFloor_eq_intFloor]
  have h2 : ⌊a * 10000 + 1 / 2⌋ ≤ ⌊b * 10000 + 1 / 2⌋ :=
    Int.floor_le_floor (by linarith)
  have h3 : ((⌊a * 10000 + 1 / 2⌋ : ℤ) : ℚ) ≤ ((⌊b * 10000 + 1 / 2⌋ : ℤ) : ℚ) := by
    exact_mod_cast h2
  linarith

theorem round4_threshold : round4 SIMILARITY_THRESHOLD = SIMILARITY_THRESHOLD := by
  unfold round4 SIMILARITY_THRESHOLD
  rw [ratFloor_eq_intFloor]
  have h1 : (0.45 : ℚ) * 10000 + 1 / 2 = (4500 : ℤ) + 1 / 2 := by norm_num
  rw [h1, show ⌊((4500 : ℤ) + 1 / 2 : ℚ)⌋ = 4500 from
    Int.floor_eq_iff.mpr ⟨by norm_num, by norm_num⟩]
  norm_num

/-! ### Clause extraction records (src/clause_extraction.py) -/

structure ExtractedClause where
  clause_number : Nat
  clause_text : String
  clause_type : String
  confidence_score : ℚ
deriving DecidableEq

/-- The `enumerate(clauses, start=1)` loop of `extract_clauses_from_pdf`. -/
def numberClauses : Nat → List String → List ExtractedClause
  | _, [] => []
  | idx, c :: rest =>
    ⟨idx, c, classify_clause c, 0.80⟩ :: numberClauses (idx + 1) rest

/-- Embedding of `extract_clauses_from_pdf` with the external PDF reader
(`pdfplumber`) abstracted away: it starts from the raw page-concatenated
contract text the reader returns. -/
def extract_clauses_from_text (contract_text : String) : List ExtractedClause :=
  numberClauses 1 (split_into_clauses (preprocess_text contract_text))

structure EnrichedClause where
  clause_number : Nat
  clause : String
  clause_type : String
  confidence_score : ℚ
  similar_clauses : List SimilarityMatch
deriving DecidableEq

/-- Embedding of `process_clauses` (src/retrieval_engine.py). -/
def process_clauses (encode : String → List ℚ)
    (clause_list : List ExtractedClause) (contract_type : String) :
    List EnrichedClause :=
  clause_list.map fun clause =>
    ⟨clause.clause_number, clause.clause_text, clause.clause_type,
      clause.confidence_score,
      retrieve_similar encode clause.clause_text contract_type
        clause.clause_type TOP_K⟩

/-! ### Risk engine boundary (src/llm_engine.py) -/

structure RiskItem where
  clause_number : Option Nat
  risk_level : Option String
  explanation : Option String
deriving DecidableEq

/-- Outcome of the external Groq chat call: `err` is any exception inside
the `try` block (API failure, malformed JSON response), `ok` is a parsed
`{"results": [...]}` payload whose entries may omit fields. -/
inductive LLMResult where
  | err (msg : String)
  | ok (results : List RiskItem)

structure RiskInfo where
  risk_level : String
  explanation : String
deriving DecidableEq

/-- The `risk_map` building loop: entries without a clause number are
skipped, later entries override earlier ones, missing fields default. -/
def buildRiskMap (results : List RiskItem) : Nat → Option RiskInfo :=
  results.foldl
    (fun m item =>
      match item.clause_number with
      | none => m
      | some n =>
        Function.update m n
          (some ⟨item.risk_level.getD "Unknown",
            item.explanation.getD "Analysis complete."⟩))
    fun _ => none

/-- Embedding of `analyze_batch_risk`, with the external call's outcome
passed in explicitly (Python dicts become `Nat → Option RiskInfo`). -/
def analyze_batch_risk (contract_type : String)
    (enriched_clauses : List EnrichedClause) (llm : LLMResult) :
    Nat → Option RiskInfo :=
  if enriched_clauses.isEmpty then fun _ => none
  else
    match llm with
    | .ok results => buildRiskMap results
    | .err msg => fun n =>
        if (enriched_clauses.map fun item => item.clause_number).contains n then
          some ⟨"High", "Groq Engine Error: " ++ msg⟩
        else none

/-! ### Pipeline orchestrator (src/pipeline.py) -/

/-- `REQUIRED_CLAUSES`, in declaration order. -/
def REQUIRED_CLAUSES : List (String × List String) :=
  [ ("Employment",
      ["Termination Clause", "Confidentiality Clause", "Payment Clause",
        "Notice Clause", "Governing Law Clause"]),
    ("NDA",
      ["Confidentiality Clause", "Termination Clause", "Governing Law Clause"]),
    ("Service",
      ["Payment Clause", "Liability Clause", "Confidentiality Clause",
        "Termination Clause", "Governing Law Clause", "Notice Clause"]),
    ("Vendor",
      ["Payment Clause", "Liability Clause", "Intellectual Property Clause",
        "Termination Clause", "Governing Law Clause"]),
    ("Lease",
      ["Payment Clause", "Termination Clause", "Liability Clause",
        "Governing Law Clause"]) ]

/-- `REQUIRED_CLAUSES.get(contract_type, [])`. -/
def requiredFor (contract_type : String) : List String :=
  ((REQUIRED_CLAUSES.find? fun p => p.1 == contract_type).map
    fun p => p.2).getD []

structure FinalClause where
  title : String
  risk_level : String
  explanation : String
deriving DecidableEq

structure Report where
  contract_type : String
  missing_clauses : List String
  clauses : List FinalClause
deriving DecidableEq

/-- Embedding of `run_analysis_pipeline`; the PDF is abstracted to its
extracted text and the Groq call to its outcome, as above.  Python's
`found_types` set membership is modelled as list membership. -/
def run_analysis_pipeline (encode : String → List ℚ) (llm : LLMResult)
    (text contract_type : String) : Report :=
  let extracted_raw := extract_clauses_from_text text
  let enriched_clauses := process_clauses encode extracted_raw contract_type
  let risk_map := analyze_batch_risk contract_type enriched_clauses llm
  let final_clauses := enriched_clauses.map fun item =>
    let risk_data := (risk_map item.clause_number).getD
      ⟨"Unknown", "No risk data returned for this clause."⟩
    (⟨item.clause_type, risk_data.risk_level, risk_data.explanation⟩ : FinalClause)
  let found_types := enriched_clauses.map fun item => item.clause_type
  ⟨contract_type,
    (requiredFor contract_type).filter fun c => !found_types.contains c,
    final_clauses⟩

/-- **C2** Retrieval returns at most `min k (group size)` matches, every
returned match scores at least the 0.45 similarity floor, and the matches
are ordered by descending similarity score. -/
theorem retrieve_similar_bounded_sorted (encode : String → List ℚ)
    (clause_text contract_type clause_type : String) (top_k : Nat) :
    (retrieve_similar encode clause_text contract_type clause_type top_k).length
        ≤ min top_k (groupTexts contract_type clause_type).length ∧
    (∀ m ∈ retrieve_similar encode clause_text contract_type clause_type top_k,
      SIMILARITY_THRESHOLD ≤ m.score) ∧
    List.Pairwise (fun a b : SimilarityMatch => b.score ≤ a.score)
      (retrieve_similar encode clause_text contract_type clause_type top_k) := by
  unfold retrieve_similar
  by_cases h0 : clause_text = ""
  · simp [h0]
  · rw [if_neg h0]
    by_cases h1 : groupTexts contract_type clause_type = []
    · simp [h1]
    · rw [if_neg h1]
      simp only
      set stored := groupTexts contract_type clause_type with hst
      set scores := stored.map
        (fun t => dotQ (encode clause_text) (encode t)) with hsc
      set hits := searchTop scores (min top_k stored.length) with hh
      have hsorted : List.Pairwise (fun a b : Nat × ℚ => b.2 ≤ a.2) hits := by
        rw [hh]
        unfold searchTop
        haveI hT : IsTotal (Nat × ℚ) (fun a b : Nat × ℚ => b.2 ≤ a.2) :=
          ⟨fun a b => le_total b.2 a.2⟩
        haveI hR : IsTrans (Nat × ℚ) (fun a b : Nat × ℚ => b.2 ≤ a.2) :=
          ⟨fun _ _ _ h1 h2 => le_trans h2 h1⟩
        exact List.Pairwise.sublist (List.take_sublist _ _)
          (List.sorted_insertionSort _ _)
      refine ⟨?_, ?_, ?_⟩
      · calc ((hits.filter fun h => !decide (h.2 < SIMILARITY_THRESHOLD)).map
              fun h => (⟨stored.getD h.1 "", round4 h.2⟩ : SimilarityMatch)).length
            = (hits.filter fun h => !decide (h.2 < SIMILARITY_THRESHOLD)).length :=
              List.length_map _ _
          _ ≤ hits.length := List.length_filter_le _ _
          _ ≤ min top_k stored.length := by
              rw [hh]
              unfold searchTop
              rw [List.length_take, List.length_insertionSort, List.enum_length,
                hsc, List.length_map]
              omega
      · intro m hm
        simp only [List.mem_map, List.mem_filter] at hm
        obtain ⟨pr, ⟨-, hthr⟩, rfl⟩ := hm
        have hge : SIMILARITY_THRESHOLD ≤ pr.2 := by
          have : ¬(pr.2 < SIMILARITY_THRESHOLD) := by simpa using hthr
          exact not_lt.mp this
        calc SIMILARITY_THRESHOLD = round4 SIMILARITY_THRESHOLD :=
              round4_threshold.symm
          _ ≤ round4 pr.2 := round4_mono hge
      · refine List.Pairwise.map _ ?_
          (List.Pairwise.sublist (List.filter_sublist _) hsorted)
        intro a b hab
        exact round4_mono hab

/-- Application of `retrieve_similar_bounded_sorted` at a concrete query
against the NDA confidentiality group. -/
theorem retrieve_similar_bounded_sorted_app :
    (retrieve_similar (fun _ => [(1 : ℚ)]) "query text" "NDA"
        "Confidentiality Clause" 2).length
      ≤ min 2 (groupTexts "NDA" "Confidentiality Clause").length :=
  (retrieve_similar_bounded_sorted (fun _ => [(1 : ℚ)]) "query text" "NDA"
    "Confidentiality Clause" 2).1

/-- **C3** Retrieval with an empty query text, or with a
`(contractType, category)` pair owning no index group, returns the empty
match sequence and never raises. -/
theorem retrieve_similar_degrades_empty (encode : String → List ℚ)
    (clause_text contract_type clause_type : String) (top_k : Nat) :
    retrieve_similar encode "" contract_type clause_type top_k = [] ∧
    (groupTexts contract_type clause_type = [] →
      retrieve_similar encode clause_text contract_type clause_type top_k = []) := by
  constructor
  · simp [retrieve_similar]
  · intro h
    unfold retrieve_similar
    by_cases h0 : clause_text = ""
    · simp [h0]
    · simp [h0, h]

/-- Application of `retrieve_similar_degrades_empty` to the
`("NDA", "Payment Clause")` pair, for which no precedent group exists. -/
theorem retrieve_similar_degrades_empty_app :
    groupTexts "NDA" "Payment Clause" = [] ∧
    retrieve_similar (fun _ => [(1 : ℚ)]) "some clause text" "NDA"
        "Payment Clause" 2 = [] :=
  ⟨by decide,
    (retrieve_similar_degrades_empty (fun _ => [(1 : ℚ)]) "some clause text"
      "NDA" "Payment Clause" 2).2 (by decide)⟩

theorem numberClauses_length (s : Nat) (l : List String) :
    (numberClauses s l).length = l.length := by
  induction l generalizing s with
  | nil => rfl
  | cons c rest ih => simp [numberClauses, ih]

theorem numberClauses_map_number :
    ∀ (s : Nat) (l : List String),
      (numberClauses s l).map (fun c => c.clause_number)
        = List.range' s l.length
  | _, [] => by simp [numberClauses]
  | s, c :: rest => by
    have ih := numberClauses_map_number (s + 1) rest
    simp [numberClauses, List.range'_succ, ih]

/-- **C6** Clause numbers assigned by extraction are 1-based, dense and
contiguous over the surviving fragments, and enrichment preserves
ordering, text, category and number of every clause, so every enriched
clause's number is unique and equals its originating clause's number. -/
theorem clause_numbering_dense_preserved (encode : String → List ℚ)
    (text contract_type : String) :
    (extract_clauses_from_text text).map (fun c => c.clause_number)
        = List.range' 1 (extract_clauses_from_text text).length ∧
    (process_clauses encode (extract_clauses_from_text text) contract_type).map
        (fun e => (e.clause_number, e.clause, e.clause_type))
      = (extract_clauses_from_text text).map
        (fun c => (c.clause_number, c.clause_text, c.clause_type)) ∧
    ((process_clauses encode (extract_clauses_from_text text) contract_type).map
        (fun e => e.clause_number)).Nodup := by
  refine ⟨?_, ?_, ?_⟩
  · unfold extract_clauses_from_text
    rw [numberClauses_map_number, numberClauses_length]
  · unfold process_clauses
    rw [List.map_map]
    rfl
  · have hnum : (process_clauses encode (extract_clauses_from_text text)
        contract_type).map (fun e => e.clause_number)
        = (extract_clauses_from_text text).map (fun c => c.clause_number) := by
      unfold process_clauses
      rw [List.map_map]
      rfl
    rw [hnum]
    unfold extract_clauses_from_text
    rw [numberClauses_map_number]
    exact List.nodup_range' _ _

/-- Application of `clause_numbering_dense_preserved` to a concrete
one-clause document. -/
theorem clause_numbering_dense_preserved_app :
    (extract_clauses_from_text
        "The quick brown fox jumps over the lazy dog repeatedly today.").map
      (fun c => c.clause_number)
      = List.range' 1
        (extract_clauses_from_text
          "The quick brown fox jumps over the lazy dog repeatedly today.").length :=
  (clause_numbering_dense_preserved (fun _ => [(1 : ℚ)])
    "The quick brown fox jumps over the lazy dog repeatedly today." "NDA").1

/-- **C5** The report's `missing_clauses` equals the contract type's
required-category list filtered to the categories not present among the
clauses' assigned categories, in declared order; with no clauses it is
the full required list. -/
theorem missing_clauses_filter (encode : String → List ℚ) (llm : LLMResult)
    (text contract_type : String) :
    (run_analysis_pipeline encode llm text contract_type).missing_clauses
        = (requiredFor contract_type).filter
          (fun c => !((extract_clauses_from_text text).map
            (fun cl => cl.clause_type)).contains c) ∧
    (extract_clauses_from_text text = [] →
      (run_analysis_pipeline encode llm text contract_type).missing_clauses
        = requiredFor contract_type) := by
  have hty : (process_clauses encode (extract_clauses_from_text text)
      contract_type).map (fun item => item.clause_type)
      = (extract_clauses_from_text text).map (fun cl => cl.clause_type) := by
    unfold process_clauses
    rw [List.map_map]
    rfl
  have h1 : (run_analysis_pipeline encode llm text contract_type).missing_clauses
      = (requiredFor contract_type).filter
        (fun c => !((extract_clauses_from_text text).map
          (fun cl => cl.clause_type)).contains c) := by
    show (requiredFor contract_type).filter _ = _
    rw [hty]
  refine ⟨h1, fun h => ?_⟩
  rw [h1, h]
  simp

/-- Application of `missing_clauses_filter` to the empty document: the
report lists the full NDA required-clause list as missing. -/
theorem missing_clauses_filter_app :
    extract_clauses_from_text "" = [] ∧
    (run_analysis_pipeline (fun _ => [(1 : ℚ)]) (LLMResult.err "down") ""
        "NDA").missing_clauses = requiredFor "NDA" :=
  ⟨by decide,
    (missing_clauses_filter (fun _ => [(1 : ℚ)]) (LLMResult.err "down") ""
      "NDA").2 (by decide)⟩

/-- **C10** For a contract type absent from the required-clause table the
orchestrator treats the required list as empty: `missing_clauses` is
always empty and no error is raised. -/
theorem unknown_contract_type_missing_empty (encode : String → List ℚ)
    (llm : LLMResult) (text contract_type : String)
    (h : contract_type ∉ (["Employment", "NDA", "Service", "Vendor", "Lease"] :
      List String)) :
    (run_analysis_pipeline encode llm text contract_type).missing_clauses
      = [] := by
  have hreq : requiredFor contract_type = [] := by
    simp only [List.mem_cons, List.not_mem_nil, or_false, not_or] at h
    obtain ⟨h1, h2, h3, h4, h5⟩ := h
    have e1 : ("Employment" == contract_type) = false :=
      beq_eq_false_iff_ne.mpr (Ne.symm h1)
    have e2 : ("NDA" == contract_type) = false :=
      beq_eq_false_iff_ne.mpr (Ne.symm h2)
    have e3 : ("Service" == contract_type) = false :=
      beq_eq_false_iff_ne.mpr (Ne.symm h3)
    have e4 : ("Vendor" == contract_type) = false :=
      beq_eq_false_iff_ne.mpr (Ne.symm h4)
    have e5 : ("Lease" == contract_type) = false :=
      beq_eq_false_iff_ne.mpr (Ne.symm h5)
    unfold requiredFor REQUIRED_CLAUSES
    simp [List.find?, e1, e2, e3, e4, e5]
  show (requiredFor contract_type).filter _ = []
  rw [hreq]
  rfl

/-- Application of `unknown_contract_type_missing_empty` to the unlisted
type "Partnership". -/
theorem unknown_contract_type_missing_empty_app :
    "Partnership" ∉ (["Employment", "NDA", "Service", "Vendor", "Lease"] :
      List String) ∧
    (run_analysis_pipeline (fun _ => [(1 : ℚ)]) (LLMResult.err "down") ""
        "Partnership").missing_clauses = [] :=
  ⟨by decide,
    unknown_contract_type_missing_empty (fun _ => [(1 : ℚ)])
      (LLMResult.err "down") "" "Partnership" (by decide)⟩

/-- Any binding in the risk map comes from some collaborator result item,
with the per-field defaults applied. -/
theorem buildRiskMap_aux :
    ∀ (results : List RiskItem) (m : Nat → Option RiskInfo) (n : Nat)
      (info : RiskInfo),
      (results.foldl
        (fun m item =>
          match item.clause_number with
          | none => m
          | some k =>
            Function.update m k
              (some ⟨item.risk_level.getD "Unknown",
                item.explanation.getD "Analysis complete."⟩)) m) n = some info →
      (∃ item ∈ results,
        info = ⟨item.risk_level.getD "Unknown",
          item.explanation.getD "Analysis complete."⟩) ∨ m n = some info
  | [], _, _, _, h => Or.inr h
  | item :: rest, m, n, info, h => by
    rw [List.foldl_cons] at h
    rcases buildRiskMap_aux rest _ n info h with ⟨it, hit, hinfo⟩ | h2
    · exact Or.inl ⟨it, List.mem_cons_of_mem _ hit, hinfo⟩
    · cases hcn : item.clause_number with
      | none =>
        rw [hcn] at h2
        exact Or.inr h2
      | some k =>
        rw [hcn] at h2
        simp only at h2
        by_cases hk : n = k
        · subst hk
          rw [Function.update_same] at h2
          injection h2 with h3
          exact Or.inl ⟨item, List.mem_cons_self _ _, h3.symm⟩
        · rw [Function.update_noteq hk] at h2
          exact Or.inr h2

/-- Every `some` answer of `analyze_batch_risk` is either the uniform
engine-error fallback or a collaborator-supplied record with defaults. -/
theorem analyze_batch_risk_cases {ct : String} {enr : List EnrichedClause}
    {llm : LLMResult} {n : Nat} {info : RiskInfo}
    (h : analyze_batch_risk ct enr llm n = some info) :
    (∃ msg, llm = LLMResult.err msg ∧
      info = ⟨"High", "Groq Engine Error: " ++ msg⟩) ∨
    (∃ results, llm = LLMResult.ok results ∧ ∃ item ∈ results,
      info = ⟨item.risk_level.getD "Unknown",
        item.explanation.getD "Analysis complete."⟩) := by
  unfold analyze_batch_risk at h
  split_ifs at h with he
  cases llm with
  | err msg =>
    simp only at h
    split_ifs at h with hc
    injection h with h2
    exact Or.inl ⟨msg, rfl, h2.symm⟩
  | ok results =>
    simp only at h
    unfold buildRiskMap at h
    rcases buildRiskMap_aux results _ n info h with ⟨item, hit, hinfo⟩ | h2
    · exact Or.inr ⟨results, rfl, item, hit, hinfo⟩
    · cases h2

/-- **C4** If the risk-scoring collaborator call fails, every clause in
the batch is assigned "High" risk with an engine-error explanation; a
clause whose number the collaborator's mapping omits gets
`⟨"Unknown", "No risk data returned for this clause."⟩` via the
orchestrator's per-clause default; and in every case the orchestrator
produces the full report, one entry per enriched clause. -/
theorem risk_fallbacks_total (encode : String → List ℚ) (llm : LLMResult)
    (text contract_type : String) :
    (∀ msg, llm = LLMResult.err msg →
      ∀ n ∈ (process_clauses encode (extract_clauses_from_text text)
          contract_type).map (fun item => item.clause_number),
        analyze_batch_risk contract_type
          (process_clauses encode (extract_clauses_from_text text)
            contract_type) llm n
          = some ⟨"High", "Groq Engine Error: " ++ msg⟩) ∧
    (run_analysis_pipeline encode llm text contract_type).clauses
      = (process_clauses encode (extract_clauses_from_text text)
          contract_type).map (fun item =>
            ((analyze_batch_risk contract_type
              (process_clauses encode (extract_clauses_from_text text)
                contract_type) llm item.clause_number).getD
              ⟨"Unknown", "No risk data returned for this clause."⟩ |>
              (fun rd => (⟨item.clause_type, rd.risk_level, rd.explanation⟩ :
                FinalClause)))) ∧
    (run_analysis_pipeline encode llm text contract_type).clauses.length
      = (process_clauses encode (extract_clauses_from_text text)
          contract_type).length := by
  refine ⟨?_, rfl, List.length_map _ _⟩
  intro msg hmsg n hn
  subst hmsg
  unfold analyze_batch_risk
  have hne : (process_clauses encode (extract_clauses_from_text text)
      contract_type).isEmpty = false := by
    cases hp : process_clauses encode (extract_clauses_from_text text)
        contract_type with
    | nil =>
      rw [hp] at hn
      simp at hn
    | cons a l => rfl
  rw [if_neg (by simp [hne])]
  simp only
  rw [if_pos]
  exact List.elem_eq_true_of_mem hn

/-- Application of `risk_fallbacks_total`: a failing collaborator call
marks the one-clause batch High with the engine error. -/
theorem risk_fallbacks_total_app :
    (LLMResult.err "boom" : LLMResult) = LLMResult.err "boom" ∧
    1 ∈ (process_clauses (fun _ => [(1 : ℚ)])
        (extract_clauses_from_text
          "The quick brown fox jumps over the lazy dog repeatedly today.")
        "NDA").map (fun item => item.clause_number) ∧
    analyze_batch_risk "NDA"
      (process_clauses (fun _ => [(1 : ℚ)])
        (extract_clauses_from_text
          "The quick brown fox jumps over the lazy dog repeatedly today.")
        "NDA")
      (LLMResult.err "boom") 1
      = some ⟨"High", "Groq Engine Error: boom"⟩ :=
  ⟨rfl, by decide,
    (risk_fallbacks_total (fun _ => [(1 : ℚ)]) (LLMResult.err "boom")
      "The quick brown fox jumps over the lazy dog repeatedly today."
      "NDA").1 "boom" rfl 1 (by decide)⟩

/-- **C9 counterexample** The claim fails as stated: the orchestrator
copies collaborator-supplied risk levels into the report verbatim, so a
response carrying the string "Critical" surfaces unvalidated. -/
theorem report_risk_level_unvalidated_cex :
    ((run_analysis_pipeline (fun _ => [(1 : ℚ)])
        (LLMResult.ok [⟨some 1, some "Critical", some "deviates"⟩])
        "The quick brown fox jumps over the lazy dog repeatedly today."
        "NDA").clauses.map fun fc => fc.risk_level) = ["Critical"] ∧
    "Critical" ∉ (["Low", "Medium", "High", "Unknown"] : List String) := by
  constructor
  · decide
  · decide

/-- **C9 amended** Every clause entry of the final report has a
`risk_level` among Low, Medium, High, Unknown, PROVIDED every risk level
in the collaborator's parsed results (after the per-item "Unknown"
default for an absent field) lies in that set; without that assumption
the orchestrator passes the collaborator's strings through unvalidated. -/
theorem report_risk_level_from_collaborator (encode : String → List ℚ)
    (llm : LLMResult) (text contract_type : String)
    (hok : ∀ results, llm = LLMResult.ok results →
      ∀ item ∈ results,
        item.risk_level.getD "Unknown"
          ∈ (["Low", "Medium", "High", "Unknown"] : List String)) :
    ∀ fc ∈ (run_analysis_pipeline encode llm text contract_type).clauses,
      fc.risk_level ∈ (["Low", "Medium", "High", "Unknown"] : List String) := by
  intro fc hfc
  have hclauses : (run_analysis_pipeline encode llm text contract_type).clauses
      = (process_clauses encode (extract_clauses_from_text text)
          contract_type).map (fun item =>
            ((analyze_batch_risk contract_type
              (process_clauses encode (extract_clauses_from_text text)
                contract_type) llm item.clause_number).getD
              ⟨"Unknown", "No risk data returned for this clause."⟩ |>
              (fun rd => (⟨item.clause_type, rd.risk_level, rd.explanation⟩ :
                FinalClause)))) := rfl
  rw [hclauses] at hfc
  obtain ⟨item, -, rfl⟩ := List.mem_map.mp hfc
  cases hq : analyze_batch_risk contract_type
      (process_clauses encode (extract_clauses_from_text text) contract_type)
      llm item.clause_number with
  | none => simp [hq]
  | some info =>
    simp only [hq, Option.getD_some]
    rcases analyze_batch_risk_cases hq with ⟨msg, -, hinfo⟩ |
        ⟨results, hres, item2, hit2, hinfo⟩
    · rw [hinfo]
      simp
    · rw [hinfo]
      exact hok results hres item2 hit2

/-- Application of `report_risk_level_from_collaborator` with a
well-formed collaborator response. -/
theorem report_risk_level_from_collaborator_app :
    (⟨"Other", "Low", "fine"⟩ : FinalClause)
        ∈ (run_analysis_pipeline (fun _ => [(1 : ℚ)])
          (LLMResult.ok [⟨some 1, some "Low", some "fine"⟩])
          "The quick brown fox jumps over the lazy dog repeatedly today."
          "NDA").clauses ∧
    (⟨"Other", "Low", "fine"⟩ : FinalClause).risk_level
      ∈ (["Low", "Medium", "High", "Unknown"] : List String) :=
  ⟨by decide,
    report_risk_level_from_collaborator (fun _ => [(1 : ℚ)])
      (LLMResult.ok [⟨some 1, some "Low", some "fine"⟩])
      "The quick brown fox jumps over the lazy dog repeatedly today." "NDA"
      (by
        intro results h item hitem
        cases h
        revert item hitem
        decide)
      ⟨"Other", "Low", "fine"⟩ (by decide)⟩

/-- **C1** For every clause text, `classify_clause` coincides with
first-match evaluation of the fixed priority-ordered rule list
(Termination, Confidentiality, Liability, IntellectualProperty,
GoverningLaw, Notice, Assignment, Payment, default Other), and any clause
containing "terminate" — in particular one also containing "payment" — is
classified as a Termination Clause, never a Payment Clause. -/
theorem classify_clause_priority_order (clause : String) :
    classify_clause clause = classifyByRules classificationRules (lowerStr clause) ∧
    (kwIn "terminate" (lowerStr clause) = true →
      classify_clause clause = "Termination Clause") := by
  constructor
  · simp only [classify_clause, classifyByRules, classificationRules,
      List.any_cons, List.any_nil, Bool.or_false]
  · intro h
    simp [classify_clause, h]

/-- Application of `classify_clause_priority_order` at a concrete clause
containing both "terminate" and "payment". -/
theorem classify_clause_priority_order_app :
    kwIn "terminate" (lowerStr "Either party may terminate upon late payment") = true ∧
    classify_clause "Either party may terminate upon late payment" = "Termination Clause" :=
  ⟨by decide,
    (classify_clause_priority_order "Either party may terminate upon late payment").2
      (by decide)⟩

end ContractAI
